import Mathlib

/-!
Verification of the parser-combinator engine in `parser_combinators.py`.

The embedding models the Python dynamically-typed value channel with `PValue`,
the two exception kinds (`ParseError` / `EOFError`) plus any other Python
exception (e.g. `IndexError`, `TypeError`) with `PFailure`, and a parser as a
function from a `ParserState` to either a new state or an escaping failure.
Python's unbounded `while True` loops (`many`, `many1`, `separated_by`) are
embedded with an explicit fuel parameter; running out of fuel is modelled as a
`crash` (the Python program would not return at all in that case).
-/

set_option maxHeartbeats 1000000

namespace PC

/-- A Python runtime value as produced by the combinators: `None`, an `int`,
a `str`, a tuple of two elements (only pairs occur, via `tag`), or a `list`. -/
inductive PValue : Type where
  | none : PValue
  | int : Int → PValue
  | str : String → PValue
  | pair : PValue → PValue → PValue
  | list : List PValue → PValue

/-- A Python exception escaping a parser: `mismatch` is `ParseError`,
`eof` is `EOFError`, and `crash` is any other exception a combinator body can
raise (e.g. `IndexError` from `bits[0]` on an empty list). -/
inductive PFailure : Type where
  | mismatch : String → PFailure
  | eof : String → PFailure
  | crash : String → PFailure
  deriving DecidableEq

/-- `ParserState(source, index, result)`: the immutable cursor. `source` is the
whole input buffer (a `List Char` for text parsers, a `List Nat` of byte values
for bit parsers), `index` the position (character or bit offset), `result` the
most recently produced value. -/
structure ParserState (σ : Type) where
  source : σ
  index : Nat
  result : PValue

/-- A parser's wrapped transformation: state in, state or escaping failure out. -/
abbrev PResult (σ : Type) := Except PFailure (ParserState σ)

abbrev Pfn (σ : Type) := ParserState σ → PResult σ

/-- `ParserState.update`: returns a fresh state sharing the receiver's source. -/
def ParserState.update (st : ParserState σ) (index : Nat) (result : PValue) :
    ParserState σ :=
  ⟨st.source, index, result⟩

/-- `ParserState.target`: the remaining unconsumed slice `source[index:]`
(meaningful for the character-mode parsers). -/
def ParserState.target (st : ParserState (List α)) : List α :=
  st.source.drop st.index

/-- `Parser.parse`: builds a fresh state at index 0 with result `None` and runs
the wrapped transformation, returning whatever it returns (the final state on
success, the escaping failure otherwise). -/
def parse (p : Pfn σ) (target : σ) : PResult σ :=
  p ⟨target, 0, PValue.none⟩

/-- `Parser.map`: run the parser, then replace the result by `map_fn(result)` at
the same index.  The Python `map_fn` may raise (e.g. `int(0)`'s folding
function), hence the `Except` codomain. -/
def map (p : Pfn σ) (map_fn : PValue → Except PFailure PValue) : Pfn σ :=
  fun st =>
    match p st with
    | .error e => .error e
    | .ok st1 =>
      match map_fn st1.result with
      | .error e => .error e
      | .ok v => .ok (st1.update st1.index v)

/-- `Parser.chain`: monadic bind; run the parser, feed its result to `chain_fn`
and run the parser so obtained from the resulting state. -/
def chain (p : Pfn σ) (chain_fn : PValue → Pfn σ) : Pfn σ :=
  fun st =>
    match p st with
    | .error e => .error e
    | .ok st1 => chain_fn st1.result st1

/-- `Parser.error_map`: catches a `ParseError` (mismatch) only and substitutes
`error_map_fn(error, index)` as a successful result at the original index. -/
def error_map (p : Pfn σ) (error_map_fn : PFailure → Nat → PValue) : Pfn σ :=
  fun st =>
    match p st with
    | .error (.mismatch m) =>
      .ok (st.update st.index (error_map_fn (.mismatch m) st.index))
    | .error e => .error e
    | .ok st1 => .ok st1

def eofMsg : String := "End of input reached, unable to match further."

/-- The `string` primitive: matches the literal `target` against the remaining
input, character for character. -/
def string (target : String) : Pfn (List Char) :=
  fun st =>
    if st.target.length < target.toList.length then
      .error (.eof eofMsg)
    else if List.isPrefixOf target.toList st.target then
      .ok (st.update (st.index + target.toList.length) (.str target))
    else
      .error (.mismatch ("\"" ++ String.mk (st.target.take target.toList.length)
        ++ "\" at index " ++ toString st.index ++ " does not start with \""
        ++ target ++ "\"."))

/-- The `letter` primitive: one alphabetic character. -/
def letter : Pfn (List Char) :=
  fun st =>
    match st.target with
    | [] => .error (.eof eofMsg)
    | c :: _ =>
      if c.isAlpha then
        .ok (st.update (st.index + 1) (.str (String.mk [c])))
      else
        .error (.mismatch ("Couldn\x27t match letters at index "
          ++ toString st.index ++ "."))

/-- The `digit` primitive: one decimal digit character. -/
def digit : Pfn (List Char) :=
  fun st =>
    match st.target with
    | [] => .error (.eof eofMsg)
    | c :: _ =>
      if c.isDigit then
        .ok (st.update (st.index + 1) (.str (String.mk [c])))
      else
        .error (.mismatch ("Couldn\x27t match digits at index "
          ++ toString st.index ++ "."))

/-- The loop of `sequence_of`: thread the state through each parser in order,
appending each result; any failure aborts the whole run. -/
def seqGo (ps : List (Pfn σ)) (st : ParserState σ) (acc : List PValue) :
    Except PFailure (ParserState σ × List PValue) :=
  match ps with
  | [] => .ok (st, acc)
  | p :: rest =>
    match p st with
    | .error e => .error e
    | .ok st1 => seqGo rest st1 (acc ++ [st1.result])

/-- `sequence_of(parsers)`: run every parser in order, collect the results. -/
def sequence_of (ps : List (Pfn σ)) : Pfn σ :=
  fun st =>
    match seqGo ps st [] with
    | .error e => .error e
    | .ok (st1, results) => .ok (st1.update st1.index (.list results))

/-- `choice(parsers)`: try each alternative from the same initial state; only a
`ParseError` (mismatch) falls through to the next alternative; `EOFError` and
any other exception propagate.  If every alternative mismatches, raise an
aggregate mismatch at the (unchanged) initial index. -/
def choice (ps : List (Pfn σ)) : Pfn σ :=
  fun st =>
    match ps with
    | [] => .error (.mismatch ("Unable to match any parsers at index "
        ++ toString st.index ++ "."))
    | p :: rest =>
      match p st with
      | .ok st1 => .ok st1
      | .error (.mismatch _) => choice rest st
      | .error e => .error e

/-- The `while True` loop shared by `many`/`many1`: keep running the parser,
appending results; a `ParseError` or `EOFError` stops the loop, returning the
accumulated results at the last successful state; any other exception
propagates.  `fuel` bounds the iteration count (the Python loop is unbounded). -/
def manyLoop (p : Pfn σ) : Nat → ParserState σ → List PValue → PResult σ
  | 0, _, _ => .error (.crash "out of fuel: the Python loop would not return")
  | fuel + 1, st, results =>
    match p st with
    | .ok st1 => manyLoop p fuel st1 (results ++ [st1.result])
    | .error (.mismatch _) => .ok (st.update st.index (.list results))
    | .error (.eof _) => .ok (st.update st.index (.list results))
    | .error (.crash m) => .error (.crash m)

/-- `many(parser)`: a bare `except:` around the first attempt returns the
original state untouched on any failure; afterwards the shared loop runs. -/
def many (p : Pfn σ) (fuel : Nat) : Pfn σ :=
  fun st =>
    match p st with
    | .error _ => .ok st
    | .ok st1 => manyLoop p fuel st1 [st1.result]

/-- `many1(parser)`: the first attempt must succeed (its failure propagates);
afterwards the shared loop runs. -/
def many1 (p : Pfn σ) (fuel : Nat) : Pfn σ :=
  fun st =>
    match p st with
    | .error e => .error e
    | .ok st1 => manyLoop p fuel st1 [st1.result]

/-- The loop of `separated_by`: only a `ParseError` from the value or the
separator breaks the loop (an `EOFError` propagates and fails the whole
combinator); a matched separator's consumption is kept even when no further
value follows. -/
def sepLoop (separator_p value_p : Pfn σ) :
    Nat → ParserState σ → List PValue → PResult σ
  | 0, _, _ => .error (.crash "out of fuel: the Python loop would not return")
  | fuel + 1, st, results =>
    match value_p st with
    | .error (.mismatch _) => .ok (st.update st.index (.list results))
    | .error e => .error e
    | .ok vst =>
      match separator_p vst with
      | .error (.mismatch _) =>
        .ok (vst.update vst.index (.list (results ++ [vst.result])))
      | .error e => .error e
      | .ok sst => sepLoop separator_p value_p fuel sst (results ++ [vst.result])

/-- `separated_by(separator)(value)`: alternate value, separator, value, … -/
def separated_by (separator_p value_p : Pfn σ) (fuel : Nat) : Pfn σ :=
  fun st => sepLoop separator_p value_p fuel st []

/-- `succeed(value)`: always succeeds with `value`, consuming nothing. -/
def succeed (value : PValue) : Pfn σ :=
  fun st => .ok (st.update st.index value)

/-- `fail(message)`: always raises a `ParseError` carrying `message`. -/
def fail (error_message : String) : Pfn σ :=
  fun _ => .error (.mismatch error_message)

/-- The bit read performed by `bit`/`zero`/`one` at absolute bit offset `i`:
byte `i // 8`, bit `7 - (i % 8)` within it, extracted exactly as the source
does: `(byte & (1 << bit_offset)) >> bit_offset`. -/
def bitAt (source : List Nat) (i : Nat) : Nat :=
  (source.getD (i / 8) 0 &&& (1 <<< (7 - i % 8))) >>> (7 - i % 8)

/-- The `bit` primitive: one bit, most-significant-bit-first inside each byte;
fails only with end-of-input. -/
def bit : Pfn (List Nat) :=
  fun st =>
    if st.index / 8 < st.source.length then
      .ok (st.update (st.index + 1) (.int (bitAt st.source st.index)))
    else
      .error (.eof eofMsg)

/-- The `zero` primitive: one bit that must be 0. -/
def zero : Pfn (List Nat) :=
  fun st =>
    if st.index / 8 < st.source.length then
      if bitAt st.source st.index ≠ 0 then
        .error (.mismatch ("Expected a zero, but got a one at index "
          ++ toString st.index))
      else
        .ok (st.update (st.index + 1) (.int (bitAt st.source st.index)))
    else
      .error (.eof eofMsg)

/-- The `one` primitive: one bit that must be 1. -/
def one : Pfn (List Nat) :=
  fun st =>
    if st.index / 8 < st.source.length then
      if bitAt st.source st.index ≠ 1 then
        .error (.mismatch ("Expected a one, but got a zero at index "
          ++ toString st.index))
      else
        .ok (st.update (st.index + 1) (.int (bitAt st.source st.index)))
    else
      .error (.eof eofMsg)

/-- The folding sum of `uint`'s map function:
`sum(map(lambda ix: ix[1] * 2 ** (n - (ix[0] + 1)), enumerate(result)))`, with
`k` the running enumeration index; a non-`int` element would raise in Python. -/
def weightedSum (n : Nat) : List PValue → Nat → Except PFailure Int
  | [], _ => .ok 0
  | v :: rest, k =>
    match v with
    | .int b =>
      match weightedSum n rest (k + 1) with
      | .error e => .error e
      | .ok s => .ok (b * 2 ^ (n - (k + 1)) + s)
    | _ => .error (.crash "TypeError: unsupported operand type for *")

/-- The folding sum of `int`'s negative branch, with each bit inverted first:
`(0 if ix[1] == 1 else 1) * 2 ** (n - (ix[0] + 1))`. -/
def invWeightedSum (n : Nat) : List PValue → Nat → Except PFailure Int
  | [], _ => .ok 0
  | v :: rest, k =>
    match v with
    | .int b =>
      match invWeightedSum n rest (k + 1) with
      | .error e => .error e
      | .ok s => .ok ((if b = 1 then (0 : Int) else 1) * 2 ^ (n - (k + 1)) + s)
    | _ => .error (.crash "TypeError: unsupported operand type for *")

/-- `uint(n)`'s map function applied to the collected bit list. -/
def uintFn (n : Nat) (v : PValue) : Except PFailure PValue :=
  match v with
  | .list bs =>
    match weightedSum n bs 0 with
    | .error e => .error e
    | .ok s => .ok (.int s)
  | _ => .error (.crash "TypeError: object is not iterable")

/-- `int(n)`'s map function: `bits[0]` decides the sign; on an empty list this
is Python's `IndexError`, which is neither a `ParseError` nor an `EOFError`. -/
def intFn (n : Nat) (v : PValue) : Except PFailure PValue :=
  match v with
  | .list [] => .error (.crash "IndexError: list index out of range")
  | .list (b0 :: rest) =>
    match b0 with
    | .int 0 =>
      match weightedSum n (PValue.int 0 :: rest) 0 with
      | .error e => .error e
      | .ok s => .ok (.int s)
    | _ =>
      match invWeightedSum n (b0 :: rest) 0 with
      | .error e => .error e
      | .ok s => .ok (.int (-(1 + s)))
  | _ => .error (.crash "TypeError: object is not iterable")

/-- `uint(n)`: n bits via `sequence_of([bit] * n)`, folded big-endian. -/
def uint (n : Nat) : Pfn (List Nat) :=
  map (sequence_of (List.replicate n bit)) (uintFn n)

/-- `int(n)`: n bits via `sequence_of([bit] * n)`, two's-complement folded. -/
def int (n : Nat) : Pfn (List Nat) :=
  map (sequence_of (List.replicate n bit)) (intFn n)

/-- UTF-8 encoding of one character, as Python's `str.encode("utf-8")`
produces it byte by byte. -/
def utf8EncodeChar (c : Char) : List Nat :=
  let n := c.toNat
  if n < 128 then [n]
  else if n < 2048 then
    [192 ||| (n >>> 6), 128 ||| (n &&& 63)]
  else if n < 65536 then
    [224 ||| (n >>> 12), 128 ||| ((n >>> 6) &&& 63), 128 ||| (n &&& 63)]
  else
    [240 ||| (n >>> 18), 128 ||| ((n >>> 12) &&& 63),
     128 ||| ((n >>> 6) &&& 63), 128 ||| (n &&& 63)]

/-- `source.encode("utf-8")`: the byte values of the literal. -/
def utf8Encode (s : String) : List Nat :=
  (s.data.map utf8EncodeChar).flatten

/-- Python `chr`: the one-character string of a code point.  All values this
development reaches are bytes below 256, where `Char.ofNat` agrees with `chr`. -/
def pyChr (n : Nat) : String :=
  String.mk [Char.ofNat n]

/-- The per-byte matcher `raw_string` builds for each byte `b` of the encoded
literal: read 8 bits as an unsigned byte and compare it with `b`; on a
difference, fail with a message naming both bytes as characters (Python's
`chr` would raise on an `int` outside its domain or a non-`int`, neither of
which an 8-bit `uint` read can produce). -/
def byteMatcher (b : Nat) : Pfn (List Nat) :=
  chain (uint 8) (fun result =>
    match result with
    | .int r =>
      if r = (b : Int) then succeed (.int b)
      else if 0 ≤ r ∧ r < 1114112 then
        fail ("Expected " ++ pyChr b ++ ", but got " ++ pyChr r.toNat ++ ".")
      else
        fun _ => .error (.crash "ValueError: chr() arg not in range")
    | _ => fun _ => .error (.crash "TypeError: an integer is required"))

/-- `raw_string(source)`: encode the literal to UTF-8 and match it against the
bit stream 8 bits at a time. -/
def raw_string (source : String) : Pfn (List Nat) :=
  fun st => sequence_of ((utf8Encode source).map byteMatcher) st

/-- `tag(type_, value)`: the curried pair constructor used to label fields. -/
def tag (type_ : PValue) (value : PValue) : PValue :=
  .pair type_ value

/-- The map function `tag(label)` of the fixed-width IPv4 fields. -/
def tagFn (label : String) (v : PValue) : Except PFailure PValue :=
  .ok (tag (.str label) v)

/-- Python `int.to_bytes(4, "big")`: raises `OverflowError` outside
`[0, 2^32)`. -/
def to_bytes4 (r : Int) : Except PFailure (List Nat) :=
  if r < 0 ∨ (2 : Int) ^ 32 ≤ r then
    .error (.crash "OverflowError: int too big to convert")
  else
    .ok [r.toNat / 2 ^ 24 % 256, r.toNat / 2 ^ 16 % 256,
         r.toNat / 2 ^ 8 % 256, r.toNat % 256]

/-- The map function of the two IP-address fields:
`tag(label, ".".join(map(str, result.to_bytes(4, "big"))))`. -/
def ipFn (label : String) (v : PValue) : Except PFailure PValue :=
  match v with
  | .int r =>
    match to_bytes4 r with
    | .error e => .error e
    | .ok bs =>
      .ok (tag (.str label) (.str (String.intercalate "." (bs.map toString))))
  | _ => .error (.crash "AttributeError: object has no attribute to_bytes")

/-- The fixed 160-bit part of the demonstration IPv4 grammar. -/
def ipv4_fixed : Pfn (List Nat) :=
  sequence_of [
    map (uint 4) (tagFn "Version"),
    map (uint 4) (tagFn "IHL"),
    map (uint 6) (tagFn "DSCP"),
    map (uint 2) (tagFn "ECN"),
    map (uint 16) (tagFn "Total Length"),
    map (uint 16) (tagFn "Identification"),
    map (uint 3) (tagFn "Flags"),
    map (uint 13) (tagFn "Fragment Offset"),
    map (uint 8) (tagFn "TTL"),
    map (uint 8) (tagFn "Protocol"),
    map (uint 16) (tagFn "Header Checksum"),
    map (uint 32) (ipFn "Source IP"),
    map (uint 32) (ipFn "Destination IP")]

/-- Python indexing `v[i]` on a list or a tuple; anything else raises. -/
def pyIndex (v : PValue) (i : Nat) : Except PFailure PValue :=
  match v with
  | .list l =>
    match l.get? i with
    | some x => .ok x
    | Option.none => .error (.crash "IndexError: list index out of range")
  | .pair a b =>
    match i with
    | 0 => .ok a
    | 1 => .ok b
    | _ => .error (.crash "IndexError: tuple index out of range")
  | _ => .error (.crash "TypeError: object is not subscriptable")

/-- Python `v > 5` as used on the parsed IHL value. -/
def pyGt5 (v : PValue) : Except PFailure Bool :=
  match v with
  | .int r => .ok (5 < r)
  | _ => .error (.crash "TypeError: not supported between instances")

/-- Python `list(t)` on the pair produced by `tag`: the tuple is splatted into
a two-element list — `list(("Options", remaining))` is
`["Options", remaining]`, not `[("Options", remaining)]`. -/
def pyListOfTuple (v : PValue) : Except PFailure PValue :=
  match v with
  | .pair a b => .ok (.list [a, b])
  | _ => .error (.crash "TypeError: object is not iterable")

/-- Python list concatenation `a + b`. -/
def pyConcat (a b : PValue) : Except PFailure PValue :=
  match a, b with
  | .list x, .list y => .ok (.list (x ++ y))
  | _, _ => .error (.crash "TypeError: can only concatenate list")

/-- The options continuation: read 8 further bytes, then succeed with
`result + list(tag("Options", remaining))`. -/
def ipv4_options_cont (result : PValue) : Pfn (List Nat) :=
  chain (sequence_of (List.replicate 8 (uint 8))) (fun remaining => fun st =>
    match (pyListOfTuple (tag (.str "Options") remaining)).bind
        (fun l => pyConcat result l) with
    | .error e => .error e
    | .ok v => succeed v st)

/-- The chained continuation of the demonstration grammar: inspect
`result[1][1]` (the parsed IHL value) and read options iff it exceeds 5. -/
def ipv4_cont (result : PValue) : Pfn (List Nat) :=
  fun st =>
    match ((pyIndex result 1).bind (fun f => pyIndex f 1)).bind pyGt5 with
    | .error e => .error e
    | .ok true => ipv4_options_cont result st
    | .ok false => succeed result st

/-- The demonstration grammar `ipv4_header_parser` (the trailing `_parser` is
dropped from the Python name). -/
def ipv4_header : Pfn (List Nat) :=
  chain ipv4_fixed ipv4_cont

/-! ## Basic facts about the bit primitive -/

theorem bitAt_eq_testBit (src : List Nat) (i : Nat) :
    bitAt src i = ((src.getD (i / 8) 0).testBit (7 - i % 8)).toNat := by
  unfold bitAt
  rw [Nat.one_shiftLeft, Nat.and_two_pow, Nat.shiftRight_eq_div_pow,
    Nat.mul_div_cancel _ (Nat.two_pow_pos _)]

theorem bitAt_le_one (src : List Nat) (i : Nat) : bitAt src i ≤ 1 := by
  rw [bitAt_eq_testBit]
  cases (src.getD (i / 8) 0).testBit (7 - i % 8) <;> simp

theorem bit_ok (src : List Nat) (i : Nat) (r : PValue) (h : i < 8 * src.length) :
    bit ⟨src, i, r⟩ = .ok ⟨src, i + 1, .int (bitAt src i)⟩ := by
  have hlt : i / 8 < src.length := Nat.div_lt_of_lt_mul (by omega)
  simp [bit, ParserState.update, hlt]

theorem bit_eof (src : List Nat) (i : Nat) (r : PValue)
    (h : 8 * src.length ≤ i) :
    bit ⟨src, i, r⟩ = .error (.eof eofMsg) := by
  have hge : ¬ i / 8 < src.length := by
    intro hc
    have := Nat.lt_mul_of_div_lt hc (by omega)
    omega
  simp [bit, hge]

/-! ## Running `sequence_of([bit] * n)` -/

theorem seqGo_bits (n : Nat) : ∀ (src : List Nat) (i : Nat) (r : PValue)
    (acc : List PValue), i + n ≤ 8 * src.length →
    ∃ r1, seqGo (List.replicate n bit) ⟨src, i, r⟩ acc =
      .ok (⟨src, i + n, r1⟩,
        acc ++ (List.range n).map (fun j => PValue.int (bitAt src (i + j)))) := by
  induction n with
  | zero => exact fun src i r acc _ => ⟨r, by simp [seqGo]⟩
  | succ n ih =>
    intro src i r acc h
    obtain ⟨r1, h1⟩ := ih src (i + 1) (.int (bitAt src i))
      (acc ++ [PValue.int (bitAt src i)]) (by omega)
    refine ⟨r1, ?_⟩
    rw [List.replicate_succ]
    rw [show seqGo (bit :: List.replicate n bit) ⟨src, i, r⟩ acc =
      seqGo (List.replicate n bit) ⟨src, i + 1, .int (bitAt src i)⟩
        (acc ++ [PValue.int (bitAt src i)]) by
        simp [seqGo, bit_ok src i r (by omega)]]
    rw [h1]
    have harr : i + 1 + n = i + (n + 1) := by omega
    have hmap : (List.range (n + 1)).map (fun j => PValue.int (bitAt src (i + j)))
        = PValue.int (bitAt src i) ::
          (List.range n).map (fun j => PValue.int (bitAt src (i + 1 + j))) := by
      rw [List.range_succ_eq_map, List.map_cons, List.map_map]
      refine congrArg₂ _ (by norm_num) (List.map_congr_left fun j _ => ?_)
      show PValue.int (bitAt src (i + (j + 1))) = PValue.int (bitAt src (i + 1 + j))
      rw [show i + (j + 1) = i + 1 + j by omega]
    rw [hmap, harr]
    simp

/-! ## The weighted folds of `uint` and `int` -/

theorem weightedSum_range (n : Nat) : ∀ (m : Nat) (f : Nat → Int) (k : Nat),
    weightedSum n ((List.range m).map (fun j => PValue.int (f j))) k =
      .ok (∑ j in Finset.range m, f j * 2 ^ (n - (k + j + 1))) := by
  intro m
  induction m with
  | zero => intro f k; simp [weightedSum]
  | succ m ih =>
    intro f k
    rw [List.range_succ_eq_map, List.map_cons, List.map_map]
    have hcast : (List.range m).map ((fun j => PValue.int (f j)) ∘ Nat.succ)
        = (List.range m).map (fun j => PValue.int (f (j + 1))) := by
      exact List.map_congr_left fun j _ => rfl
    rw [hcast]
    show weightedSum n (PValue.int (f 0) :: _) k = _
    rw [weightedSum, ih (fun j => f (j + 1)) (k + 1)]
    dsimp only
    rw [Finset.sum_range_succ']
    refine congrArg _ ?_
    rw [add_comm]
    refine congrArg₂ _ (Finset.sum_congr rfl fun j _ => ?_) ?_
    · rw [show k + (j + 1) + 1 = k + 1 + j + 1 by omega]
    · rw [show k + 0 + 1 = k + 1 by omega]

theorem invWeightedSum_range (n : Nat) : ∀ (m : Nat) (f : Nat → Int) (k : Nat),
    invWeightedSum n ((List.range m).map (fun j => PValue.int (f j))) k =
      .ok (∑ j in Finset.range m,
        (if f j = 1 then (0 : Int) else 1) * 2 ^ (n - (k + j + 1))) := by
  intro m
  induction m with
  | zero => intro f k; simp [invWeightedSum]
  | succ m ih =>
    intro f k
    rw [List.range_succ_eq_map, List.map_cons, List.map_map]
    have hcast : (List.range m).map ((fun j => PValue.int (f j)) ∘ Nat.succ)
        = (List.range m).map (fun j => PValue.int (f (j + 1))) := by
      exact List.map_congr_left fun j _ => rfl
    rw [hcast]
    show invWeightedSum n (PValue.int (f 0) :: _) k = _
    rw [invWeightedSum, ih (fun j => f (j + 1)) (k + 1)]
    dsimp only
    rw [Finset.sum_range_succ']
    refine congrArg _ ?_
    rw [add_comm]
    refine congrArg₂ _ (Finset.sum_congr rfl fun j _ => ?_) ?_
    · rw [show k + (j + 1) + 1 = k + 1 + j + 1 by omega]
    · rw [show k + 0 + 1 = k + 1 by omega]

theorem sequence_of_bits (n : Nat) (src : List Nat) (i : Nat) (r : PValue)
    (h : i + n ≤ 8 * src.length) :
    sequence_of (List.replicate n bit) ⟨src, i, r⟩ =
      .ok ⟨src, i + n,
        .list ((List.range n).map (fun j => PValue.int (bitAt src (i + j))))⟩ := by
  obtain ⟨r1, h1⟩ := seqGo_bits n src i r [] h
  unfold sequence_of
  rw [h1]
  simp [ParserState.update]

theorem uint_eval (n : Nat) (src : List Nat) (i : Nat) (r : PValue)
    (h : i + n ≤ 8 * src.length) :
    uint n ⟨src, i, r⟩ = .ok ⟨src, i + n,
      .int (∑ j in Finset.range n,
        (bitAt src (i + j) : Int) * 2 ^ (n - 1 - j))⟩ := by
  unfold uint map
  rw [sequence_of_bits n src i r h]
  unfold uintFn
  dsimp only
  rw [weightedSum_range n n (fun j => (bitAt src (i + j) : Int)) 0]
  dsimp only [ParserState.update]
  refine congrArg _ ?_
  refine congrArg _ (congrArg _ (Finset.sum_congr rfl fun j _ => ?_))
  rw [show n - (0 + j + 1) = n - 1 - j by omega]

theorem sum_pow_two_int (n : Nat) :
    (∑ j in Finset.range n, (2 : Int) ^ (n - 1 - j)) = 2 ^ n - 1 := by
  induction n with
  | zero => simp
  | succ n ih =>
    rw [Finset.sum_range_succ']
    have h1 : ∀ j ∈ Finset.range n,
        (2 : Int) ^ (n + 1 - 1 - (j + 1)) = 2 ^ (n - 1 - j) := by
      intro j _; congr 1; omega
    rw [Finset.sum_congr rfl h1, ih, show n + 1 - 1 - 0 = n by omega]
    ring

theorem intFn_cons_zero (n : Nat) (rest : List PValue) :
    intFn n (.list (PValue.int 0 :: rest))
      = match weightedSum n (PValue.int 0 :: rest) 0 with
        | .error e => .error e
        | .ok s => .ok (.int s) := rfl

theorem intFn_cons_one (n : Nat) (rest : List PValue) :
    intFn n (.list (PValue.int 1 :: rest))
      = match invWeightedSum n (PValue.int 1 :: rest) 0 with
        | .error e => .error e
        | .ok s => .ok (.int (-(1 + s))) := rfl

theorem int_eval (n : Nat) (src : List Nat) (i : Nat) (r : PValue)
    (hn : 1 ≤ n) (h : i + n ≤ 8 * src.length) :
    int n ⟨src, i, r⟩ = .ok ⟨src, i + n, .int (
      if bitAt src i = 0 then
        ∑ j in Finset.range n, (bitAt src (i + j) : Int) * 2 ^ (n - 1 - j)
      else
        (∑ j in Finset.range n, (bitAt src (i + j) : Int) * 2 ^ (n - 1 - j))
          - 2 ^ n)⟩ := by
  obtain ⟨m, rfl⟩ : ∃ m, n = m + 1 := ⟨n - 1, by omega⟩
  have hble := bitAt_le_one src i
  have hU := weightedSum_range (m + 1) (m + 1)
    (fun j => (bitAt src (i + j) : Int)) 0
  have hI := invWeightedSum_range (m + 1) (m + 1)
    (fun j => (bitAt src (i + j) : Int)) 0
  have hsplit : (List.range (m + 1)).map
      (fun j => PValue.int (bitAt src (i + j)))
      = PValue.int (bitAt src i) ::
        (List.range m).map (fun j => PValue.int (bitAt src (i + (j + 1)))) := by
    rw [List.range_succ_eq_map, List.map_cons, List.map_map]
    rfl
  have hperterm : ∀ j, ((if (bitAt src (i + j) : Int) = 1 then (0 : Int) else 1))
      = 1 - (bitAt src (i + j) : Int) := by
    intro j
    have := bitAt_le_one src (i + j)
    interval_cases hbj : bitAt src (i + j) <;> norm_num
  have hinv : (∑ j in Finset.range (m + 1),
        (if (bitAt src (i + j) : Int) = 1 then (0 : Int) else 1)
          * 2 ^ (m + 1 - (0 + j + 1)))
      = (2 ^ (m + 1) - 1)
        - ∑ j in Finset.range (m + 1),
            (bitAt src (i + j) : Int) * 2 ^ (m + 1 - (0 + j + 1)) := by
    have h1 : ∀ j ∈ Finset.range (m + 1),
        (if (bitAt src (i + j) : Int) = 1 then (0 : Int) else 1)
            * 2 ^ (m + 1 - (0 + j + 1))
          = (2 : Int) ^ (m + 1 - 1 - j)
            - (bitAt src (i + j) : Int) * 2 ^ (m + 1 - (0 + j + 1)) := by
      intro j _
      rw [hperterm j, show m + 1 - (0 + j + 1) = m + 1 - 1 - j by omega]
      ring
    rw [Finset.sum_congr rfl h1, Finset.sum_sub_distrib, sum_pow_two_int]
  unfold int map
  rw [sequence_of_bits (m + 1) src i r h]
  dsimp only
  rcases Nat.le_one_iff_eq_zero_or_eq_one.mp hble with hb | hb
  · have hlist : (List.range (m + 1)).map
        (fun j => PValue.int (bitAt src (i + j)))
        = PValue.int 0 ::
          (List.range m).map (fun j => PValue.int (bitAt src (i + (j + 1)))) := by
      rw [hsplit, hb, Nat.cast_zero]
    rw [if_pos hb, hlist, intFn_cons_zero, ← hlist, hU]
    dsimp only [ParserState.update]
    refine congrArg _ (congrArg _ (congrArg _
      (Finset.sum_congr rfl fun j _ => ?_)))
    rw [show m + 1 - (0 + j + 1) = m + 1 - 1 - j by omega]
  · have hlist : (List.range (m + 1)).map
        (fun j => PValue.int (bitAt src (i + j)))
        = PValue.int 1 ::
          (List.range m).map (fun j => PValue.int (bitAt src (i + (j + 1)))) := by
      rw [hsplit, hb, Nat.cast_one]
    rw [if_neg (by omega), hlist, intFn_cons_one, ← hlist, hI]
    dsimp only [ParserState.update]
    refine congrArg _ (congrArg _ (congrArg _ ?_))
    rw [hinv]
    have hexp : ∀ j ∈ Finset.range (m + 1),
        (bitAt src (i + j) : Int) * 2 ^ (m + 1 - (0 + j + 1))
          = (bitAt src (i + j) : Int) * 2 ^ (m + 1 - 1 - j) := by
      intro j _
      rw [show m + 1 - (0 + j + 1) = m + 1 - 1 - j by omega]
    rw [Finset.sum_congr rfl hexp]
    ring

/-- Claim C1: for every `n ≥ 1` and every bit source with at least `n` bits
remaining, `uint(n)` consumes exactly `n` bits `b_0..b_{n-1}` and returns the
non-negative integer `Σ b_j · 2^(n-1-j)` (big-endian, most-significant-bit
first). -/
theorem uint_correct (n : Nat) (src : List Nat) (i : Nat) (r : PValue)
    (_hn : 1 ≤ n) (h : i + n ≤ 8 * src.length) :
    uint n ⟨src, i, r⟩ = .ok ⟨src, i + n,
      .int (∑ j in Finset.range n,
        (bitAt src (i + j) : Int) * 2 ^ (n - 1 - j))⟩ :=
  uint_eval n src i r h

/-- Witness for C1 on the byte `0x45`: the first 4-bit read gives 4
(bits `0100`) and the second gives 5 (bits `0101`). -/
theorem uint_correct_witness :
    ((1 ≤ 4 ∧ 0 + 4 ≤ 8 * [(69 : Nat)].length) ∧
      uint 4 ⟨[69], 0, PValue.none⟩ = .ok ⟨[69], 4, .int 4⟩) ∧
    uint 4 ⟨[69], 4, PValue.none⟩ = .ok ⟨[69], 8, .int 5⟩ := by
  refine ⟨⟨⟨by norm_num, by norm_num⟩, ?_⟩, ?_⟩
  · rw [uint_correct 4 [69] 0 PValue.none (by norm_num) (by norm_num)]
    refine congrArg _ (congrArg _ (congrArg _ (by decide)))
  · rw [uint_correct 4 [69] 4 PValue.none (by norm_num) (by norm_num)]
    refine congrArg _ (congrArg _ (congrArg _ (by decide)))

/-- Claim C2: for every `n ≥ 1` and every bit source with at least `n` bits
remaining, `int(n)` consumes exactly `n` bits and returns the standard
two's-complement value: the unsigned interpretation when the first bit is 0,
and the unsigned interpretation minus `2^n` when the first bit is 1, the
latter being equal to `-(1 + the weighted sum of the inverted bits)`. -/
theorem int_twos_complement (n : Nat) (src : List Nat) (i : Nat) (r : PValue)
    (hn : 1 ≤ n) (h : i + n ≤ 8 * src.length) :
    (int n ⟨src, i, r⟩ = .ok ⟨src, i + n, .int (
      if bitAt src i = 0 then
        ∑ j in Finset.range n, (bitAt src (i + j) : Int) * 2 ^ (n - 1 - j)
      else
        (∑ j in Finset.range n, (bitAt src (i + j) : Int) * 2 ^ (n - 1 - j))
          - 2 ^ n)⟩)
    ∧ (bitAt src i ≠ 0 →
        (∑ j in Finset.range n, (bitAt src (i + j) : Int) * 2 ^ (n - 1 - j))
            - 2 ^ n
          = -(1 + ∑ j in Finset.range n,
              (1 - (bitAt src (i + j) : Int)) * 2 ^ (n - 1 - j))) := by
  refine ⟨int_eval n src i r hn h, fun _ => ?_⟩
  have h1 : ∀ j ∈ Finset.range n,
      (1 - (bitAt src (i + j) : Int)) * 2 ^ (n - 1 - j)
        = (2 : Int) ^ (n - 1 - j)
          - (bitAt src (i + j) : Int) * 2 ^ (n - 1 - j) := by
    intro j _; ring
  rw [Finset.sum_congr rfl h1, Finset.sum_sub_distrib, sum_pow_two_int]
  ring

/-- Witness for C2: bits `10000001` (byte `0x81`) decode to −127 and bits
`01111111` (byte `0x7F`) decode to 127. -/
theorem int_twos_complement_witness :
    int 8 ⟨[129], 0, PValue.none⟩ = .ok ⟨[129], 8, .int (-127)⟩ ∧
    int 8 ⟨[127], 0, PValue.none⟩ = .ok ⟨[127], 8, .int 127⟩ := by
  constructor
  · rw [(int_twos_complement 8 [129] 0 PValue.none (by norm_num)
      (by norm_num)).1]
    refine congrArg _ (congrArg _ (congrArg _ (by decide)))
  · rw [(int_twos_complement 8 [127] 0 PValue.none (by norm_num)
      (by norm_num)).1]
    refine congrArg _ (congrArg _ (congrArg _ (by decide)))

/-- Claim C10: `int(0)` inspects `bits[0]` of the empty collected bit list and
therefore raises an `IndexError` — an error that is neither a mismatch
(`ParseError`) nor an end-of-input condition (`EOFError`) — on every input,
while `uint(0)` always succeeds with value 0 and consumes nothing. -/
theorem int_zero_crash (src : List Nat) (i : Nat) (r : PValue) :
    (int 0 ⟨src, i, r⟩
        = .error (.crash "IndexError: list index out of range")
      ∧ uint 0 ⟨src, i, r⟩ = .ok ⟨src, i, .int 0⟩)
    ∧ (∀ m, PFailure.crash "IndexError: list index out of range"
        ≠ .mismatch m)
    ∧ (∀ m, PFailure.crash "IndexError: list index out of range"
        ≠ .eof m) := by
  refine ⟨⟨rfl, rfl⟩, ?_, ?_⟩ <;> intro m h <;> cases h

/-- Claim C3: `choice` tries each alternative from the same initial cursor in
order and returns the first success; a mismatch from an alternative causes the
next one to be tried from the original cursor; an end-of-input failure
propagates and terminates the whole choice; and if every alternative fails
with a mismatch, `choice` raises an aggregate mismatch naming the original
position. -/
theorem choice_semantics (σ : Type) (p : Pfn σ) (rest : List (Pfn σ))
    (st : ParserState σ) :
    (∀ st1, p st = .ok st1 → choice (p :: rest) st = .ok st1)
    ∧ (∀ m, p st = .error (.mismatch m) →
        choice (p :: rest) st = choice rest st)
    ∧ (∀ m, p st = .error (.eof m) →
        choice (p :: rest) st = .error (.eof m))
    ∧ (∀ ps : List (Pfn σ),
        (∀ q ∈ ps, ∃ m, q st = .error (.mismatch m)) →
        choice ps st = .error (.mismatch
          ("Unable to match any parsers at index "
            ++ toString st.index ++ "."))) := by
  refine ⟨fun st1 h => by simp [choice, h],
    fun m h => by simp [choice, h],
    fun m h => by simp [choice, h], ?_⟩
  intro ps
  induction ps with
  | nil => intro _; rfl
  | cons q qs ih =>
    intro hall
    obtain ⟨m, hm⟩ := hall q (List.mem_cons_self q qs)
    rw [show choice (q :: qs) st = choice qs st by simp [choice, hm]]
    exact ih fun q' hq' => hall q' (List.mem_cons_of_mem q hq')

/-- Witness for C3: `letter` mismatches on `"1"`, so the choice falls through
to the remaining alternatives, tried from the original cursor. -/
theorem choice_semantics_witness :
    choice [letter, digit] ⟨"1".toList, 0, PValue.none⟩
      = choice [digit] ⟨"1".toList, 0, PValue.none⟩ :=
  (choice_semantics (List Char) letter [digit]
    ⟨"1".toList, 0, PValue.none⟩).2.1 _ rfl

/-- Counterexample for C4: `many(letter)` on input "123" (where `letter` fails
on the very first attempt) succeeds, but its result is the original state's
result `None` unchanged — not an empty sequence as the claim states. -/
theorem many_empty_result_counterexample :
    many letter 5 ⟨"123".toList, 0, PValue.none⟩
        = .ok ⟨"123".toList, 0, PValue.none⟩
    ∧ PValue.none ≠ PValue.list [] :=
  ⟨rfl, fun h => by cases h⟩

/-- Claim C4 amended: `many(p)` never fails on a first-attempt failure of
either kind, but it then returns the original state unchanged — original
cursor position and original (not empty) result; after at least one success
it stops on the first mismatch or end-of-input and returns everything
accumulated so far (any other exception propagates). -/
theorem many_behavior (σ : Type) (p : Pfn σ) (fuel : Nat)
    (st : ParserState σ) :
    (∀ e, p st = .error e → many p fuel st = .ok st)
    ∧ (∀ st1, p st = .ok st1 →
        many p fuel st = manyLoop p fuel st1 [st1.result])
    ∧ (∀ results st1 m,
        p st1 = .error (.mismatch m) ∨ p st1 = .error (.eof m) →
        manyLoop p (fuel + 1) st1 results
          = .ok (st1.update st1.index (.list results)))
    ∧ (∀ results st1 st2, p st1 = .ok st2 →
        manyLoop p (fuel + 1) st1 results
          = manyLoop p fuel st2 (results ++ [st2.result])) := by
  refine ⟨fun e h => by simp [many, h],
    fun st1 h => by simp [many, h], ?_, ?_⟩
  · intro results st1 m hm
    rcases hm with hm | hm <;> simp [manyLoop, hm]
  · intro results st1 st2 h
    simp [manyLoop, h]

/-- Witness for C4 (amended): a first-attempt mismatch returns the original
state. -/
theorem many_behavior_witness :
    many digit 7 ⟨"abc".toList, 0, PValue.none⟩
      = .ok ⟨"abc".toList, 0, PValue.none⟩ :=
  (many_behavior (List Char) digit 7 ⟨"abc".toList, 0, PValue.none⟩).1 _ rfl

/-- Counterexample for C7: `parse` does not return the accumulated result
value — it returns the final cursor state.  Two parsers whose accumulated
result values coincide ("ab") produce different `parse` outputs, because the
output also carries the final position. -/
theorem parse_returns_state_counterexample :
    parse (string "ab") "abc".toList = .ok ⟨"abc".toList, 2, .str "ab"⟩
    ∧ parse (succeed (.str "ab")) "abc".toList
        = .ok ⟨"abc".toList, 0, .str "ab"⟩
    ∧ parse (string "ab") "abc".toList
        ≠ parse (succeed (.str "ab")) "abc".toList := by
  refine ⟨rfl, rfl, fun h => ?_⟩
  have h2 : (Except.ok ⟨"abc".toList, 2, .str "ab"⟩ : PResult (List Char))
      = .ok ⟨"abc".toList, 0, .str "ab"⟩ := h
  injection h2 with h3
  injection h3 with _ h4
  exact absurd h4 (by decide)

/-- Claim C7 amended: `parse(input)` constructs a fresh cursor at position 0
with an empty (`None`) result and runs the wrapped transformation; on success
it returns the final cursor state — whose `result` field holds the
accumulated value for the outermost combinator — and on failure the failure
escapes unchanged. -/
theorem parse_behavior (σ : Type) (p : Pfn σ) (t : σ) :
    parse p t = p ⟨t, 0, PValue.none⟩
    ∧ (∀ st, p ⟨t, 0, PValue.none⟩ = .ok st → parse p t = .ok st)
    ∧ (∀ e, p ⟨t, 0, PValue.none⟩ = .error e → parse p t = .error e) :=
  ⟨rfl, fun _ h => h, fun _ h => h⟩

/-- Witness for C7 (amended). -/
theorem parse_behavior_witness :
    parse (succeed (.int 42)) "x".toList = .ok ⟨"x".toList, 0, .int 42⟩ :=
  (parse_behavior (List Char) (succeed (.int 42)) "x".toList).2.1 _ rfl

/-- Counterexample for C8: `separated_by(string(","))(digit)` on "1,x" matches
the value "1", then the separator ",", then fails to match a value; the final
cursor position is 2 — the trailing fully-matched separator remains consumed
even though no value followed it — not 1, the end of the last matched value. -/
theorem separated_by_trailing_counterexample :
    parse (separated_by (string ",") digit 9) "1,x".toList
        = .ok ⟨"1,x".toList, 2, .list [.str "1"]⟩
    ∧ (2 : Nat) ≠ 1 :=
  ⟨rfl, by decide⟩

/-- Claim C8 amended: `separated_by(sep)(value)` alternates value, sep, … and
stops on the first mismatch of a value or of a following separator, returning
all fully matched values without itself failing; the final cursor sits after
the last successful sub-parse, so a trailing matched separator stays consumed
when the following value mismatches; an end-of-input failure from either
sub-parser propagates and fails the whole combinator. -/
theorem separated_by_behavior (σ : Type) (sep_p value_p : Pfn σ) (fuel : Nat)
    (st : ParserState σ) (acc : List PValue) :
    separated_by sep_p value_p fuel st = sepLoop sep_p value_p fuel st []
    ∧ (∀ m, value_p st = .error (.mismatch m) →
        sepLoop sep_p value_p (fuel + 1) st acc
          = .ok (st.update st.index (.list acc)))
    ∧ (∀ m, value_p st = .error (.eof m) →
        sepLoop sep_p value_p (fuel + 1) st acc = .error (.eof m))
    ∧ (∀ vst, value_p st = .ok vst →
        (∀ m, sep_p vst = .error (.mismatch m) →
          sepLoop sep_p value_p (fuel + 1) st acc
            = .ok (vst.update vst.index (.list (acc ++ [vst.result]))))
        ∧ (∀ m, sep_p vst = .error (.eof m) →
            sepLoop sep_p value_p (fuel + 1) st acc = .error (.eof m))
        ∧ (∀ sst, sep_p vst = .ok sst →
            sepLoop sep_p value_p (fuel + 1) st acc
              = sepLoop sep_p value_p fuel sst (acc ++ [vst.result]))) := by
  refine ⟨rfl, fun m h => by simp [sepLoop, h],
    fun m h => by simp [sepLoop, h], ?_⟩
  intro vst hv
  exact ⟨fun m h => by simp [sepLoop, hv, h],
    fun m h => by simp [sepLoop, hv, h],
    fun sst h => by simp [sepLoop, hv, h]⟩

/-- Witness for C8 (amended): one value then a separator mismatch — the loop
stops at the value's end with the value collected. -/
theorem separated_by_behavior_witness :
    sepLoop (string ",") digit 1 ⟨"1;".toList, 0, PValue.none⟩ []
      = .ok ⟨"1;".toList, 1, .list [.str "1"]⟩ := by
  have h := (separated_by_behavior (List Char) (string ",") digit 0
    ⟨"1;".toList, 0, PValue.none⟩ []).2.2.2
    ⟨"1;".toList, 1, .str "1"⟩ rfl
  exact h.1 _ rfl

/-! ## The byte-exact matcher -/

theorem seqGo_cons (p : Pfn σ) (ps : List (Pfn σ)) (st st1 : ParserState σ)
    (acc : List PValue) (h : p st = .ok st1) :
    seqGo (p :: ps) st acc = seqGo ps st1 (acc ++ [st1.result]) := by
  simp [seqGo, h]

theorem seqGo_cons_error (p : Pfn σ) (ps : List (Pfn σ))
    (st : ParserState σ) (acc : List PValue) (e : PFailure)
    (h : p st = .error e) :
    seqGo (p :: ps) st acc = .error e := by
  simp [seqGo, h]

theorem bitAt_byte (src : List Nat) (k j : Nat) (hj : j < 8) :
    bitAt src (8 * k + j)
      = (src.getD k 0 &&& (1 <<< (7 - j))) >>> (7 - j) := by
  unfold bitAt
  rw [show (8 * k + j) / 8 = k by omega, show (8 * k + j) % 8 = j by omega]

set_option maxRecDepth 40000 in
theorem byte_sum_nat : ∀ B : Nat, B < 256 →
    (∑ j in Finset.range 8,
      ((B &&& (1 <<< (7 - j))) >>> (7 - j)) * 2 ^ (8 - 1 - j)) = B := by
  decide

theorem uint8_byte (src : List Nat) (k : Nat) (r : PValue)
    (hk : k < src.length) (hB : src.getD k 0 < 256) :
    uint 8 ⟨src, 8 * k, r⟩ = .ok ⟨src, 8 * k + 8, .int (src.getD k 0)⟩ := by
  rw [uint_eval 8 src (8 * k) r (by omega)]
  refine congrArg _ (congrArg _ (congrArg _ ?_))
  have hnat : (∑ j in Finset.range 8, bitAt src (8 * k + j) * 2 ^ (8 - 1 - j))
      = src.getD k 0 := by
    have h1 : ∀ j ∈ Finset.range 8,
        bitAt src (8 * k + j) * 2 ^ (8 - 1 - j)
          = ((src.getD k 0 &&& (1 <<< (7 - j))) >>> (7 - j))
              * 2 ^ (8 - 1 - j) := by
      intro j hj
      rw [bitAt_byte src k j (Finset.mem_range.mp hj)]
    rw [Finset.sum_congr rfl h1]
    exact byte_sum_nat _ hB
  exact_mod_cast congrArg (fun x : Nat => (x : Int)) hnat

theorem byteMatcher_ok (src : List Nat) (k : Nat) (r : PValue)
    (hk : k < src.length) (hB : src.getD k 0 < 256) (b : Nat)
    (hb : src.getD k 0 = b) :
    byteMatcher b ⟨src, 8 * k, r⟩ = .ok ⟨src, 8 * k + 8, .int b⟩ := by
  unfold byteMatcher chain
  rw [uint8_byte src k r hk hB, hb]
  dsimp only
  rw [if_pos rfl]
  rfl

theorem byteMatcher_fail (src : List Nat) (k : Nat) (r : PValue)
    (hk : k < src.length) (hB : src.getD k 0 < 256) (b : Nat)
    (hne : src.getD k 0 ≠ b) :
    byteMatcher b ⟨src, 8 * k, r⟩
      = .error (.mismatch ("Expected " ++ pyChr b ++ ", but got "
          ++ pyChr (src.getD k 0) ++ ".")) := by
  unfold byteMatcher chain
  rw [uint8_byte src k r hk hB]
  dsimp only
  rw [if_neg (by exact_mod_cast hne)]
  rw [if_pos (⟨by positivity,
    by exact_mod_cast (by omega : src.getD k 0 < 1114112)⟩ :
      (0 : Int) ≤ (src.getD k 0 : Int) ∧ (src.getD k 0 : Int) < 1114112)]
  rw [show ((src.getD k 0 : Int)).toNat = src.getD k 0 from
    Int.toNat_natCast _]
  rfl

theorem rawGo (pl : List Nat) : ∀ (front : List Nat) (b : Nat) (suf : List Nat)
    (c : Nat) (rest : List Nat) (r : PValue) (acc : List PValue),
    (∀ x ∈ pl, x < 256) → b < 256 → c < 256 → b ≠ c →
    seqGo ((pl ++ b :: suf).map byteMatcher)
        ⟨front ++ pl ++ c :: rest, 8 * front.length, r⟩ acc
      = .error (.mismatch ("Expected " ++ pyChr b ++ ", but got "
          ++ pyChr c ++ ".")) := by
  induction pl with
  | nil =>
    intro front b suf c rest r acc _ hb hc hne
    have hgetD : ((front ++ [] ++ c :: rest).getD front.length 0) = c := by
      rw [List.append_nil,
        List.getD_append_right front (c :: rest) 0 front.length (le_refl _)]
      simp
    have hk : front.length < (front ++ [] ++ c :: rest).length := by
      simp only [List.append_nil, List.length_append, List.length_cons]
      omega
    have hbm := byteMatcher_fail (front ++ [] ++ c :: rest) front.length r hk
      (by rw [hgetD]; exact hc) b (by rw [hgetD]; exact fun h => hne h.symm)
    rw [hgetD] at hbm
    rw [show (([] ++ b :: suf : List Nat)).map byteMatcher
      = byteMatcher b :: suf.map byteMatcher from rfl]
    exact seqGo_cons_error _ _ _ _ _ hbm
  | cons x pl ih =>
    intro front b suf c rest r acc hall hb hc hne
    have hassoc : front ++ (x :: pl) ++ c :: rest
        = (front ++ [x]) ++ pl ++ c :: rest := by
      simp
    have hgetD : ((front ++ (x :: pl) ++ c :: rest).getD front.length 0) = x := by
      rw [List.append_assoc,
        List.getD_append_right front ((x :: pl) ++ c :: rest) 0 front.length
          (le_refl _)]
      simp
    have hk : front.length < (front ++ (x :: pl) ++ c :: rest).length := by
      simp only [List.length_append, List.length_cons]
      omega
    have hbm := byteMatcher_ok (front ++ (x :: pl) ++ c :: rest) front.length r
      hk (by rw [hgetD]; exact hall x (List.mem_cons_self x pl)) x hgetD
    rw [show (((x :: pl) ++ b :: suf : List Nat)).map byteMatcher
      = byteMatcher x :: ((pl ++ b :: suf).map byteMatcher) from rfl]
    rw [seqGo_cons _ _ _ _ acc hbm]
    have hidx : 8 * front.length + 8 = 8 * (front ++ [x]).length := by
      have hl : (front ++ [x]).length = front.length + 1 := by simp
      omega
    rw [hassoc, hidx]
    exact ih (front ++ [x]) b suf c rest (PValue.int x) (acc ++ [PValue.int x])
      (fun y hy => hall y (List.mem_cons_of_mem x hy)) hb hc hne

/-- Counterexample for C6: matching the literal "abc" against input bytes that
diverge at the third byte ("abx") raises a mismatch whose message is exactly
"Expected c, but got x." — it names both characters but contains no digit at
all, hence no position. -/
theorem raw_string_no_position_counterexample :
    parse (raw_string "abc") [97, 98, 120]
        = .error (.mismatch "Expected c, but got x.")
    ∧ (("Expected c, but got x.".toList).all (fun ch => !ch.isDigit))
        = true :=
  ⟨rfl, rfl⟩

/-- Claim C6 amended: for every text literal and every byte input that has a
first diverging byte, `raw_string` fails with a mismatch whose description
names the expected byte and the first mismatching input byte as their
corresponding characters (but no position), and — the failure escaping as an
exception — nothing is consumed from the caller's perspective. -/
theorem raw_string_mismatch (lit : String) (pre : List Nat) (b : Nat)
    (suf : List Nat) (c : Nat) (rest : List Nat) (r : PValue)
    (henc : utf8Encode lit = pre ++ b :: suf)
    (hpre : ∀ x ∈ pre, x < 256) (hb : b < 256) (hc : c < 256) (hne : b ≠ c) :
    raw_string lit ⟨pre ++ c :: rest, 0, r⟩
      = .error (.mismatch ("Expected " ++ pyChr b ++ ", but got "
          ++ pyChr c ++ ".")) := by
  unfold raw_string sequence_of
  rw [henc]
  have h := rawGo pre [] b suf c rest r [] hpre hb hc hne
  rw [List.nil_append, show (8 * ([] : List Nat).length) = 0 by simp] at h
  rw [h]

/-- Witness for C6 (amended), at the concrete divergence of "abc" vs "abx". -/
theorem raw_string_mismatch_witness :
    raw_string "abc" ⟨[97, 98, 120], 0, PValue.none⟩
      = .error (.mismatch ("Expected " ++ pyChr 99 ++ ", but got "
          ++ pyChr 120 ++ ".")) :=
  raw_string_mismatch "abc" [97, 98] 99 [] 120 [] PValue.none rfl
    (by decide) (by decide) (by decide) (by decide)

/-! ## The demonstration grammar on concrete headers -/

/-- A well-formed 20-byte IPv4 header with IHL 5 (no options): version 4,
DSCP 0, ECN 0, total length 20, identification 1, flags 2, fragment offset 0,
TTL 64, protocol 6, checksum 0xABCD, source 192.168.0.1, destination
10.0.0.255. -/
def hdr20 : List Nat :=
  [0x45, 0x00, 0x00, 0x14, 0x00, 0x01, 0x40, 0x00,
   0x40, 0x06, 0xAB, 0xCD, 192, 168, 0, 1, 10, 0, 0, 255]

/-- The same header with IHL 6 and 8 trailing option bytes 1..8. -/
def hdr28 : List Nat :=
  [0x46, 0x00, 0x00, 0x14, 0x00, 0x01, 0x40, 0x00,
   0x40, 0x06, 0xAB, 0xCD, 192, 168, 0, 1, 10, 0, 0, 255,
   1, 2, 3, 4, 5, 6, 7, 8]

/-- The 13 fixed tagged fields the demonstration grammar produces on the
headers above, parameterised by the IHL value. -/
def ipv4Fields (ihl : Int) : List PValue :=
  [.pair (.str "Version") (.int 4),
   .pair (.str "IHL") (.int ihl),
   .pair (.str "DSCP") (.int 0),
   .pair (.str "ECN") (.int 0),
   .pair (.str "Total Length") (.int 20),
   .pair (.str "Identification") (.int 1),
   .pair (.str "Flags") (.int 2),
   .pair (.str "Fragment Offset") (.int 0),
   .pair (.str "TTL") (.int 64),
   .pair (.str "Protocol") (.int 6),
   .pair (.str "Header Checksum") (.int 43981),
   .pair (.str "Source IP") (.str "192.168.0.1"),
   .pair (.str "Destination IP") (.str "10.0.0.255")]

set_option maxRecDepth 200000 in
/-- Claim C5 (code bug): on the IHL=5 header the parse yields exactly the 13
tagged fields in order and no options field — that part holds.  On the IHL=6
header the parse does consume 8 further bytes, but the code computes
`result + list(tag('Options', remaining))`, and Python's `list` splats the
tuple, so the result gains TWO extra untagged elements — the bare string
"Options" and the list of the 8 option bytes — for 15 elements in total, not
one additional tagged (label, value) field for 14 as the claim (and the
code's own use of `tag`) intends. -/
theorem ipv4_options_untagged :
    parse ipv4_header hdr20 = .ok ⟨hdr20, 160, .list (ipv4Fields 5)⟩
    ∧ parse ipv4_header hdr28
        = .ok ⟨hdr28, 224, .list (ipv4Fields 6
            ++ [.str "Options",
                .list [.int 1, .int 2, .int 3, .int 4,
                       .int 5, .int 6, .int 7, .int 8]])⟩
    ∧ (ipv4Fields 6
        ++ [PValue.str "Options",
            .list [.int 1, .int 2, .int 3, .int 4,
                   .int 5, .int 6, .int 7, .int 8]]).length = 15
    ∧ (15 : Nat) ≠ 14 :=
  ⟨rfl, rfl, rfl, by decide⟩

/-! ## Cursor invariants: index monotonicity and update freshness -/

/-- A parser never moves the cursor's index backwards on success. -/
def IndexMonotone (p : Pfn σ) : Prop :=
  ∀ st st', p st = .ok st' → st.index ≤ st'.index

theorem update_index (st : ParserState σ) (i : Nat) (v : PValue) :
    (st.update i v).index = i := rfl

theorem choice_cons_ok (p : Pfn σ) (rest : List (Pfn σ))
    (st st1 : ParserState σ) (h : p st = .ok st1) :
    choice (p :: rest) st = .ok st1 := by
  simp [choice, h]

theorem choice_cons_mismatch (p : Pfn σ) (rest : List (Pfn σ))
    (st : ParserState σ) (m : String) (h : p st = .error (.mismatch m)) :
    choice (p :: rest) st = choice rest st := by
  simp [choice, h]

theorem choice_cons_eof (p : Pfn σ) (rest : List (Pfn σ))
    (st : ParserState σ) (m : String) (h : p st = .error (.eof m)) :
    choice (p :: rest) st = .error (.eof m) := by
  simp [choice, h]

theorem choice_cons_crash (p : Pfn σ) (rest : List (Pfn σ))
    (st : ParserState σ) (m : String) (h : p st = .error (.crash m)) :
    choice (p :: rest) st = .error (.crash m) := by
  simp [choice, h]

theorem manyLoop_succ_ok (p : Pfn σ) (fuel : Nat) (st st1 : ParserState σ)
    (acc : List PValue) (h : p st = .ok st1) :
    manyLoop p (fuel + 1) st acc = manyLoop p fuel st1 (acc ++ [st1.result]) := by
  simp [manyLoop, h]

theorem manyLoop_succ_mismatch (p : Pfn σ) (fuel : Nat) (st : ParserState σ)
    (acc : List PValue) (m : String) (h : p st = .error (.mismatch m)) :
    manyLoop p (fuel + 1) st acc = .ok (st.update st.index (.list acc)) := by
  simp [manyLoop, h]

theorem manyLoop_succ_eof (p : Pfn σ) (fuel : Nat) (st : ParserState σ)
    (acc : List PValue) (m : String) (h : p st = .error (.eof m)) :
    manyLoop p (fuel + 1) st acc = .ok (st.update st.index (.list acc)) := by
  simp [manyLoop, h]

theorem manyLoop_succ_crash (p : Pfn σ) (fuel : Nat) (st : ParserState σ)
    (acc : List PValue) (m : String) (h : p st = .error (.crash m)) :
    manyLoop p (fuel + 1) st acc = .error (.crash m) := by
  simp [manyLoop, h]

theorem many_first_error (p : Pfn σ) (fuel : Nat) (st : ParserState σ)
    (e : PFailure) (h : p st = .error e) : many p fuel st = .ok st := by
  simp [many, h]

theorem many_first_ok (p : Pfn σ) (fuel : Nat) (st st1 : ParserState σ)
    (h : p st = .ok st1) :
    many p fuel st = manyLoop p fuel st1 [st1.result] := by
  simp [many, h]

theorem many1_first_error (p : Pfn σ) (fuel : Nat) (st : ParserState σ)
    (e : PFailure) (h : p st = .error e) : many1 p fuel st = .error e := by
  simp [many1, h]

theorem many1_first_ok (p : Pfn σ) (fuel : Nat) (st st1 : ParserState σ)
    (h : p st = .ok st1) :
    many1 p fuel st = manyLoop p fuel st1 [st1.result] := by
  simp [many1, h]

theorem sepLoop_value_mismatch (sp vp : Pfn σ) (fuel : Nat)
    (st : ParserState σ) (acc : List PValue) (m : String)
    (h : vp st = .error (.mismatch m)) :
    sepLoop sp vp (fuel + 1) st acc = .ok (st.update st.index (.list acc)) := by
  simp [sepLoop, h]

theorem sepLoop_value_eof (sp vp : Pfn σ) (fuel : Nat) (st : ParserState σ)
    (acc : List PValue) (m : String) (h : vp st = .error (.eof m)) :
    sepLoop sp vp (fuel + 1) st acc = .error (.eof m) := by
  simp [sepLoop, h]

theorem sepLoop_value_crash (sp vp : Pfn σ) (fuel : Nat) (st : ParserState σ)
    (acc : List PValue) (m : String) (h : vp st = .error (.crash m)) :
    sepLoop sp vp (fuel + 1) st acc = .error (.crash m) := by
  simp [sepLoop, h]

theorem sepLoop_sep_mismatch (sp vp : Pfn σ) (fuel : Nat)
    (st vst : ParserState σ) (acc : List PValue) (m : String)
    (hv : vp st = .ok vst) (hs : sp vst = .error (.mismatch m)) :
    sepLoop sp vp (fuel + 1) st acc
      = .ok (vst.update vst.index (.list (acc ++ [vst.result]))) := by
  simp [sepLoop, hv, hs]

theorem sepLoop_sep_eof (sp vp : Pfn σ) (fuel : Nat) (st vst : ParserState σ)
    (acc : List PValue) (m : String)
    (hv : vp st = .ok vst) (hs : sp vst = .error (.eof m)) :
    sepLoop sp vp (fuel + 1) st acc = .error (.eof m) := by
  simp [sepLoop, hv, hs]

theorem sepLoop_sep_crash (sp vp : Pfn σ) (fuel : Nat) (st vst : ParserState σ)
    (acc : List PValue) (m : String)
    (hv : vp st = .ok vst) (hs : sp vst = .error (.crash m)) :
    sepLoop sp vp (fuel + 1) st acc = .error (.crash m) := by
  simp [sepLoop, hv, hs]

theorem sepLoop_sep_ok (sp vp : Pfn σ) (fuel : Nat)
    (st vst sst : ParserState σ) (acc : List PValue)
    (hv : vp st = .ok vst) (hs : sp vst = .ok sst) :
    sepLoop sp vp (fuel + 1) st acc
      = sepLoop sp vp fuel sst (acc ++ [vst.result]) := by
  simp [sepLoop, hv, hs]

theorem sequence_of_of_seqGo_ok (ps : List (Pfn σ)) (st st1 : ParserState σ)
    (res : List PValue) (h : seqGo ps st [] = .ok (st1, res)) :
    sequence_of ps st = .ok (st1.update st1.index (.list res)) := by
  simp [sequence_of, h]

theorem sequence_of_of_seqGo_error (ps : List (Pfn σ)) (st : ParserState σ)
    (e : PFailure) (h : seqGo ps st [] = .error e) :
    sequence_of ps st = .error e := by
  simp [sequence_of, h]

theorem map_error (p : Pfn σ) (f : PValue → Except PFailure PValue)
    (st : ParserState σ) (e : PFailure) (h : p st = .error e) :
    map p f st = .error e := by
  simp [map, h]

theorem map_fn_error (p : Pfn σ) (f : PValue → Except PFailure PValue)
    (st st1 : ParserState σ) (e : PFailure) (h : p st = .ok st1)
    (hf : f st1.result = .error e) : map p f st = .error e := by
  simp [map, h, hf]

theorem map_ok (p : Pfn σ) (f : PValue → Except PFailure PValue)
    (st st1 : ParserState σ) (v : PValue) (h : p st = .ok st1)
    (hf : f st1.result = .ok v) :
    map p f st = .ok (st1.update st1.index v) := by
  simp [map, h, hf]

theorem chain_error (p : Pfn σ) (f : PValue → Pfn σ) (st : ParserState σ)
    (e : PFailure) (h : p st = .error e) : chain p f st = .error e := by
  simp [chain, h]

theorem chain_ok (p : Pfn σ) (f : PValue → Pfn σ) (st st1 : ParserState σ)
    (h : p st = .ok st1) : chain p f st = f st1.result st1 := by
  simp [chain, h]

theorem error_map_ok (p : Pfn σ) (f : PFailure → Nat → PValue)
    (st st1 : ParserState σ) (h : p st = .ok st1) :
    error_map p f st = .ok st1 := by
  simp [error_map, h]

theorem error_map_mismatch (p : Pfn σ) (f : PFailure → Nat → PValue)
    (st : ParserState σ) (m : String) (h : p st = .error (.mismatch m)) :
    error_map p f st
      = .ok (st.update st.index (f (.mismatch m) st.index)) := by
  simp [error_map, h]

theorem error_map_eof (p : Pfn σ) (f : PFailure → Nat → PValue)
    (st : ParserState σ) (m : String) (h : p st = .error (.eof m)) :
    error_map p f st = .error (.eof m) := by
  simp [error_map, h]

theorem error_map_crash (p : Pfn σ) (f : PFailure → Nat → PValue)
    (st : ParserState σ) (m : String) (h : p st = .error (.crash m)) :
    error_map p f st = .error (.crash m) := by
  simp [error_map, h]

theorem mono_string (t : String) : IndexMonotone (string t) := by
  intro st st' h
  unfold string at h
  split_ifs at h <;> first
    | (injection h with h'; subst h'; exact Nat.le_add_right _ _)
    | injection h

theorem mono_letter : IndexMonotone letter := by
  intro st st' h
  unfold letter at h
  split at h
  · injection h
  · split_ifs at h <;> first
      | (injection h with h'; subst h'; exact Nat.le_add_right _ _)
      | injection h

theorem mono_digit : IndexMonotone digit := by
  intro st st' h
  unfold digit at h
  split at h
  · injection h
  · split_ifs at h <;> first
      | (injection h with h'; subst h'; exact Nat.le_add_right _ _)
      | injection h

theorem mono_bit : IndexMonotone bit := by
  intro st st' h
  unfold bit at h
  split_ifs at h <;> first
    | (injection h with h'; subst h'; exact Nat.le_add_right _ _)
    | injection h

theorem mono_zero : IndexMonotone zero := by
  intro st st' h
  unfold zero at h
  split_ifs at h <;> first
    | (injection h with h'; subst h'; exact Nat.le_add_right _ _)
    | injection h

theorem mono_one : IndexMonotone one := by
  intro st st' h
  unfold one at h
  split_ifs at h <;> first
    | (injection h with h'; subst h'; exact Nat.le_add_right _ _)
    | injection h

theorem mono_succeed (v : PValue) : IndexMonotone (succeed (σ := σ) v) := by
  intro st st' h
  injection h with h'
  subst h'
  exact Nat.le_refl _

theorem mono_fail (m : String) : IndexMonotone (fail (σ := σ) m) := by
  intro st st' h
  simp [fail] at h

theorem mono_map (p : Pfn σ) (f : PValue → Except PFailure PValue)
    (hp : IndexMonotone p) : IndexMonotone (map p f) := by
  intro st st' h
  cases hps : p st with
  | error e => rw [map_error p f st e hps] at h; injection h
  | ok st1 =>
    cases hf : f st1.result with
    | error e => rw [map_fn_error p f st st1 e hps hf] at h; injection h
    | ok v =>
      rw [map_ok p f st st1 v hps hf] at h
      injection h with h'
      subst h'
      exact hp st st1 hps

theorem mono_chain (p : Pfn σ) (f : PValue → Pfn σ) (hp : IndexMonotone p)
    (hf : ∀ v, IndexMonotone (f v)) : IndexMonotone (chain p f) := by
  intro st st' h
  cases hps : p st with
  | error e => rw [chain_error p f st e hps] at h; injection h
  | ok st1 =>
    rw [chain_ok p f st st1 hps] at h
    exact le_trans (hp st st1 hps) (hf st1.result st1 st' h)

theorem mono_error_map (p : Pfn σ) (f : PFailure → Nat → PValue)
    (hp : IndexMonotone p) : IndexMonotone (error_map p f) := by
  intro st st' h
  cases hps : p st with
  | ok st1 =>
    rw [error_map_ok p f st st1 hps] at h
    injection h with h'
    subst h'
    exact hp _ _ hps
  | error e =>
    cases e with
    | mismatch m =>
      rw [error_map_mismatch p f st m hps] at h
      injection h with h'
      subst h'
      exact Nat.le_refl _
    | eof m => rw [error_map_eof p f st m hps] at h; injection h
    | crash m => rw [error_map_crash p f st m hps] at h; injection h

theorem mono_seqGo : ∀ (ps : List (Pfn σ)), (∀ q ∈ ps, IndexMonotone q) →
    ∀ (st : ParserState σ) (acc : List PValue) (st1 : ParserState σ)
      (res : List PValue),
    seqGo ps st acc = .ok (st1, res) → st.index ≤ st1.index := by
  intro ps
  induction ps with
  | nil =>
    intro _ st acc st1 res h
    simp only [seqGo, Except.ok.injEq, Prod.mk.injEq] at h
    rw [h.1]
  | cons p ps ih =>
    intro hall st acc st1 res h
    cases hps : p st with
    | error e => rw [seqGo_cons_error p ps st acc e hps] at h; injection h
    | ok st2 =>
      rw [seqGo_cons p ps st st2 acc hps] at h
      exact le_trans (hall p (List.mem_cons_self p ps) st st2 hps)
        (ih (fun q hq => hall q (List.mem_cons_of_mem p hq)) st2 _ st1 res h)

theorem mono_sequence_of (ps : List (Pfn σ))
    (hall : ∀ q ∈ ps, IndexMonotone q) : IndexMonotone (sequence_of ps) := by
  intro st st' h
  cases hseq : seqGo ps st [] with
  | error e => rw [sequence_of_of_seqGo_error ps st e hseq] at h; injection h
  | ok pr =>
    obtain ⟨st1, res⟩ := pr
    rw [sequence_of_of_seqGo_ok ps st st1 res hseq] at h
    injection h with h'
    subst h'
    exact mono_seqGo ps hall st [] st1 res hseq

theorem mono_choice : ∀ (ps : List (Pfn σ)),
    (∀ q ∈ ps, IndexMonotone q) → IndexMonotone (choice ps) := by
  intro ps
  induction ps with
  | nil => intro _ st st' h; simp [choice] at h
  | cons p rest ih =>
    intro hall st st' h
    cases hps : p st with
    | ok st1 =>
      rw [choice_cons_ok p rest st st1 hps] at h
      injection h with h'
      subst h'
      exact hall p (List.mem_cons_self p rest) st st1 hps
    | error e =>
      cases e with
      | mismatch m =>
        rw [choice_cons_mismatch p rest st m hps] at h
        exact ih (fun q hq => hall q (List.mem_cons_of_mem p hq)) st st' h
      | eof m => rw [choice_cons_eof p rest st m hps] at h; injection h
      | crash m => rw [choice_cons_crash p rest st m hps] at h; injection h

theorem mono_manyLoop (p : Pfn σ) (hp : IndexMonotone p) :
    ∀ (fuel : Nat) (st : ParserState σ) (acc : List PValue)
      (st' : ParserState σ),
    manyLoop p fuel st acc = .ok st' → st.index ≤ st'.index := by
  intro fuel
  induction fuel with
  | zero => intro st acc st' h; simp [manyLoop] at h
  | succ fuel ih =>
    intro st acc st' h
    cases hps : p st with
    | ok st1 =>
      rw [manyLoop_succ_ok p fuel st st1 acc hps] at h
      exact le_trans (hp st st1 hps) (ih st1 _ st' h)
    | error e =>
      cases e with
      | mismatch m =>
        rw [manyLoop_succ_mismatch p fuel st acc m hps] at h
        injection h with h'
        subst h'
        exact Nat.le_refl _
      | eof m =>
        rw [manyLoop_succ_eof p fuel st acc m hps] at h
        injection h with h'
        subst h'
        exact Nat.le_refl _
      | crash m =>
        rw [manyLoop_succ_crash p fuel st acc m hps] at h
        injection h

theorem mono_many (p : Pfn σ) (fuel : Nat) (hp : IndexMonotone p) :
    IndexMonotone (many p fuel) := by
  intro st st' h
  cases hps : p st with
  | error e =>
    rw [many_first_error p fuel st e hps] at h
    injection h with h'
    subst h'
    exact le_refl st.index
  | ok st1 =>
    rw [many_first_ok p fuel st st1 hps] at h
    exact le_trans (hp st st1 hps) (mono_manyLoop p hp fuel st1 _ st' h)

theorem mono_many1 (p : Pfn σ) (fuel : Nat) (hp : IndexMonotone p) :
    IndexMonotone (many1 p fuel) := by
  intro st st' h
  cases hps : p st with
  | error e => rw [many1_first_error p fuel st e hps] at h; injection h
  | ok st1 =>
    rw [many1_first_ok p fuel st st1 hps] at h
    exact le_trans (hp st st1 hps) (mono_manyLoop p hp fuel st1 _ st' h)

theorem mono_sepLoop (sp vp : Pfn σ) (hs : IndexMonotone sp)
    (hv : IndexMonotone vp) :
    ∀ (fuel : Nat) (st : ParserState σ) (acc : List PValue)
      (st' : ParserState σ),
    sepLoop sp vp fuel st acc = .ok st' → st.index ≤ st'.index := by
  intro fuel
  induction fuel with
  | zero => intro st acc st' h; simp [sepLoop] at h
  | succ fuel ih =>
    intro st acc st' h
    cases hvs : vp st with
    | error e =>
      cases e with
      | mismatch m =>
        rw [sepLoop_value_mismatch sp vp fuel st acc m hvs] at h
        injection h with h'
        subst h'
        exact Nat.le_refl _
      | eof m =>
        rw [sepLoop_value_eof sp vp fuel st acc m hvs] at h
        injection h
      | crash m =>
        rw [sepLoop_value_crash sp vp fuel st acc m hvs] at h
        injection h
    | ok vst =>
      cases hss : sp vst with
      | error e =>
        cases e with
        | mismatch m =>
          rw [sepLoop_sep_mismatch sp vp fuel st vst acc m hvs hss] at h
          injection h with h'
          subst h'
          exact hv st vst hvs
        | eof m =>
          rw [sepLoop_sep_eof sp vp fuel st vst acc m hvs hss] at h
          injection h
        | crash m =>
          rw [sepLoop_sep_crash sp vp fuel st vst acc m hvs hss] at h
          injection h
      | ok sst =>
        rw [sepLoop_sep_ok sp vp fuel st vst sst acc hvs hss] at h
        exact le_trans (hv st vst hvs)
          (le_trans (hs vst sst hss) (ih sst _ st' h))

theorem mono_separated_by (sp vp : Pfn σ) (fuel : Nat) (hs : IndexMonotone sp)
    (hv : IndexMonotone vp) : IndexMonotone (separated_by sp vp fuel) := by
  intro st st' h
  exact mono_sepLoop sp vp hs hv fuel st [] st' h

theorem mono_uint (n : Nat) : IndexMonotone (uint n) :=
  mono_map _ _ (mono_sequence_of _ (fun q hq => by
    rw [List.eq_of_mem_replicate hq]; exact mono_bit))

theorem mono_int (n : Nat) : IndexMonotone (int n) :=
  mono_map _ _ (mono_sequence_of _ (fun q hq => by
    rw [List.eq_of_mem_replicate hq]; exact mono_bit))

theorem mono_byteMatcher (b : Nat) : IndexMonotone (byteMatcher b) := by
  refine mono_chain _ _ (mono_uint 8) ?_
  intro v
  cases v with
  | int r =>
    dsimp only
    split_ifs
    · exact mono_succeed _
    · exact mono_fail _
    · intro st st' h
      injection h
  | none => intro st st' h; injection h
  | str s => intro st st' h; injection h
  | pair a c => intro st st' h; injection h
  | list l => intro st st' h; injection h

theorem mono_raw_string (s : String) : IndexMonotone (raw_string s) := by
  intro st st' h
  unfold raw_string at h
  refine mono_sequence_of _ ?_ st st' h
  intro q hq
  obtain ⟨b, _, rfl⟩ := List.mem_map.mp hq
  exact mono_byteMatcher b

/-- Claim C9: within a single successful derivation the cursor's index is
monotonically non-decreasing — every combinator of the library returns a
cursor whose index is ≥ the input cursor's index (primitives directly, the
higher-order combinators whenever their components do) — and `update` never
mutates the receiver: it builds a fresh cursor value sharing the receiver's
source, so earlier cursors stay valid for backtracking. -/
theorem cursor_invariants :
    (∀ (σ : Type) (st : ParserState σ) (i : Nat) (v : PValue),
        st.update i v = ⟨st.source, i, v⟩)
    ∧ (∀ t : String, IndexMonotone (string t))
    ∧ IndexMonotone letter
    ∧ IndexMonotone digit
    ∧ IndexMonotone bit
    ∧ IndexMonotone zero
    ∧ IndexMonotone one
    ∧ (∀ (σ : Type) (v : PValue), IndexMonotone (succeed (σ := σ) v))
    ∧ (∀ (σ : Type) (m : String), IndexMonotone (fail (σ := σ) m))
    ∧ (∀ (σ : Type) (p : Pfn σ) (f : PValue → Except PFailure PValue),
        IndexMonotone p → IndexMonotone (map p f))
    ∧ (∀ (σ : Type) (p : Pfn σ) (f : PValue → Pfn σ), IndexMonotone p →
        (∀ v, IndexMonotone (f v)) → IndexMonotone (chain p f))
    ∧ (∀ (σ : Type) (p : Pfn σ) (f : PFailure → Nat → PValue),
        IndexMonotone p → IndexMonotone (error_map p f))
    ∧ (∀ (σ : Type) (ps : List (Pfn σ)), (∀ q ∈ ps, IndexMonotone q) →
        IndexMonotone (sequence_of ps))
    ∧ (∀ (σ : Type) (ps : List (Pfn σ)), (∀ q ∈ ps, IndexMonotone q) →
        IndexMonotone (choice ps))
    ∧ (∀ (σ : Type) (p : Pfn σ) (fuel : Nat), IndexMonotone p →
        IndexMonotone (many p fuel))
    ∧ (∀ (σ : Type) (p : Pfn σ) (fuel : Nat), IndexMonotone p →
        IndexMonotone (many1 p fuel))
    ∧ (∀ (σ : Type) (sp vp : Pfn σ) (fuel : Nat), IndexMonotone sp →
        IndexMonotone vp → IndexMonotone (separated_by sp vp fuel))
    ∧ (∀ n, IndexMonotone (uint n))
    ∧ (∀ n, IndexMonotone (int n))
    ∧ (∀ s, IndexMonotone (raw_string s)) :=
  ⟨fun _ _ _ _ => rfl, mono_string, mono_letter, mono_digit, mono_bit,
    mono_zero, mono_one, fun _ => mono_succeed, fun _ => mono_fail,
    fun _ => mono_map, fun _ => mono_chain, fun _ => mono_error_map,
    fun _ => mono_sequence_of, fun _ => mono_choice,
    fun _ p fuel hp => mono_many p fuel hp,
    fun _ p fuel hp => mono_many1 p fuel hp,
    fun _ sp vp fuel hs hv => mono_separated_by sp vp fuel hs hv,
    mono_uint, mono_int, mono_raw_string⟩

/-- Witness for C9: a concrete successful `uint 4` derivation moves the index
from 0 to 4 (never backwards), and `update` builds the expected fresh value. -/
theorem cursor_invariants_witness :
    ((⟨[(69 : Nat)], 0, PValue.none⟩ : ParserState (List Nat)).index
        ≤ (⟨[(69 : Nat)], 4, PValue.int 4⟩ : ParserState (List Nat)).index)
    ∧ (⟨[(69 : Nat)], 0, PValue.none⟩ : ParserState (List Nat)).update 4
        (PValue.int 4) = ⟨[(69 : Nat)], 4, PValue.int 4⟩ := by
  obtain ⟨hupd, _, _, _, _, _, _, _, _, _, _, _, _, _, _, _, _, huint, _, _⟩ :=
    cursor_invariants
  exact ⟨huint 4 ⟨[69], 0, PValue.none⟩ ⟨[69], 4, PValue.int 4⟩ rfl,
    hupd (List Nat) ⟨[69], 0, PValue.none⟩ 4 (PValue.int 4)⟩

end PC
